import Mathlib

set_option linter.unusedVariables false

/-!
Verification of the wireguard-go log adapter core:
the discrete token bucket (types/logger/tokenbucket.go) and the
filter/rewrite/throttle log pipeline (wgengine/wglog/wglog.go).

Modelling conventions:
* Go `time.Time` and `time.Duration` are modelled as `Int` nanosecond counts;
  Go `int` is modelled as unbounded `Int` (64-bit wraparound is not modelled).
* Go integer division on `time.Duration` truncates toward zero, which is
  `Int.tdiv` here.
* Mutating methods become functions returning the updated value.
-/

/-- Model of the Go struct `tokenBucket` from types/logger/tokenbucket.go:
fields remaining, max, tick, t (lastRefill instant). -/
structure tokenBucket where
  remaining : Int
  max : Int
  tick : Int
  t : Int
  deriving Repr, DecidableEq

/-- Model of `newTokenBucket(tick, max, now)`: starts full, lastRefill = now. -/
def newTokenBucket (tick : Int) (max : Int) (now : Int) : tokenBucket :=
  { remaining := max, max := max, tick := tick, t := now }

/-- Model of method `Get`: the returned Bool paired with the updated bucket. -/
def tokenBucket.Get (tb : tokenBucket) : Bool × tokenBucket :=
  if tb.remaining > 0 then
    (true, { tb with remaining := tb.remaining - 1 })
  else
    (false, tb)

/-- Model of method `Refund(n)`: add n, capped at max. -/
def tokenBucket.Refund (tb : tokenBucket) (n : Int) : tokenBucket :=
  if tb.remaining + n > tb.max then
    { tb with remaining := tb.max }
  else
    { tb with remaining := tb.remaining + n }

/-- Model of method `AdvanceTo(t)`: whole elapsed ticks are credited via
Refund and lastRefill advances by exactly ticks * tick (single-use local
variables of the Go body are inlined). -/
def tokenBucket.AdvanceTo (tb : tokenBucket) (t : Int) : tokenBucket :=
  tokenBucket.Refund
    { tb with t := tb.t + Int.tdiv (t - tb.t) tb.tick * tb.tick }
    (Int.tdiv (t - tb.t) tb.tick)

/-- One call in a sequence of token-bucket operations. -/
inductive BucketOp where
  | get : BucketOp
  | refund : Int → BucketOp
  | advanceTo : Int → BucketOp
  deriving Repr, DecidableEq

/-- Apply one operation to a bucket (the Bool result of Get is discarded). -/
def runOp (tb : tokenBucket) : BucketOp → tokenBucket
  | BucketOp.get => (tokenBucket.Get tb).2
  | BucketOp.refund n => tb.Refund n
  | BucketOp.advanceTo t => tb.AdvanceTo t

/-- Apply a sequence of operations left to right. -/
def runOps (tb : tokenBucket) : List BucketOp → tokenBucket
  | [] => tb
  | op :: rest => runOps (runOp tb op) rest

/-- Admissible call sequences: Refund amounts are nonnegative and each
AdvanceTo instant does not lie before the bucket's current lastRefill. -/
def validOps (tb : tokenBucket) : List BucketOp → Bool
  | [] => true
  | BucketOp.get :: rest => validOps (runOp tb BucketOp.get) rest
  | BucketOp.refund n :: rest => decide (0 ≤ n) && validOps (tb.Refund n) rest
  | BucketOp.advanceTo t :: rest => decide (tb.t ≤ t) && validOps (tb.AdvanceTo t) rest

/-- The bucket invariant claimed by the spec. -/
def bucketInv (tb : tokenBucket) : Prop :=
  0 ≤ tb.remaining ∧ tb.remaining ≤ tb.max

instance (tb : tokenBucket) : Decidable (bucketInv tb) :=
  inferInstanceAs (Decidable (0 ≤ tb.remaining ∧ tb.remaining ≤ tb.max))

/-- Run a sequence of operations collecting each Get call's Bool result. -/
def getResults (tb : tokenBucket) : List BucketOp → List Bool × tokenBucket
  | [] => ([], tb)
  | BucketOp.get :: rest =>
      ((tokenBucket.Get tb).1 :: (getResults (tokenBucket.Get tb).2 rest).1,
        (getResults (tokenBucket.Get tb).2 rest).2)
  | BucketOp.refund n :: rest => getResults (tb.Refund n) rest
  | BucketOp.advanceTo t :: rest => getResults (tb.AdvanceTo t) rest

theorem Refund_t (tb : tokenBucket) (n : Int) : (tb.Refund n).t = tb.t := by
  unfold tokenBucket.Refund; split <;> rfl

theorem Refund_max (tb : tokenBucket) (n : Int) : (tb.Refund n).max = tb.max := by
  unfold tokenBucket.Refund; split <;> rfl

theorem Refund_tick (tb : tokenBucket) (n : Int) : (tb.Refund n).tick = tb.tick := by
  unfold tokenBucket.Refund; split <;> rfl

theorem Refund_remaining_le (tb : tokenBucket) (n : Int) :
    (tb.Refund n).remaining ≤ tb.max := by
  unfold tokenBucket.Refund; split
  · exact le_refl _
  · show tb.remaining + n ≤ tb.max
    omega

theorem Refund_zero_of_le (tb : tokenBucket) (h : tb.remaining ≤ tb.max) :
    tb.Refund 0 = tb := by
  unfold tokenBucket.Refund
  rw [if_neg (by omega)]
  simp

theorem AdvanceTo_t (tb : tokenBucket) (now : Int) :
    (tb.AdvanceTo now).t = tb.t + Int.tdiv (now - tb.t) tb.tick * tb.tick := by
  unfold tokenBucket.AdvanceTo; rw [Refund_t]

theorem AdvanceTo_max (tb : tokenBucket) (now : Int) :
    (tb.AdvanceTo now).max = tb.max := by
  unfold tokenBucket.AdvanceTo; rw [Refund_max]

theorem AdvanceTo_tick (tb : tokenBucket) (now : Int) :
    (tb.AdvanceTo now).tick = tb.tick := by
  unfold tokenBucket.AdvanceTo; rw [Refund_tick]

theorem AdvanceTo_remaining_le (tb : tokenBucket) (now : Int) :
    (tb.AdvanceTo now).remaining ≤ (tb.AdvanceTo now).max := by
  rw [AdvanceTo_max]
  unfold tokenBucket.AdvanceTo
  exact le_trans (Refund_remaining_le _ _) (le_refl _)

theorem bucketInv_Get (tb : tokenBucket) (h : bucketInv tb) :
    bucketInv (tokenBucket.Get tb).2 := by
  unfold bucketInv tokenBucket.Get at *
  split
  · constructor <;> simp <;> omega
  · exact h

theorem bucketInv_Refund (tb : tokenBucket) (n : Int) (hn : 0 ≤ n)
    (h : bucketInv tb) : bucketInv (tb.Refund n) := by
  unfold bucketInv tokenBucket.Refund at *
  split <;> constructor <;> simp <;> omega

theorem bucketInv_AdvanceTo (tb : tokenBucket) (now : Int)
    (htick : 0 < tb.tick) (hle : tb.t ≤ now) (h : bucketInv tb) :
    bucketInv (tb.AdvanceTo now) := by
  unfold tokenBucket.AdvanceTo
  apply bucketInv_Refund
  · exact Int.tdiv_nonneg (by omega) (by omega)
  · unfold bucketInv at *
    simpa using h

theorem runOp_tick (tb : tokenBucket) (op : BucketOp) :
    (runOp tb op).tick = tb.tick := by
  cases op with
  | get =>
      show (tokenBucket.Get tb).2.tick = tb.tick
      unfold tokenBucket.Get; split <;> rfl
  | refund n => exact Refund_tick tb n
  | advanceTo t => exact AdvanceTo_tick tb t

theorem bucketInv_runOps_take (ops : List BucketOp) :
    ∀ tb : tokenBucket, bucketInv tb → 0 < tb.tick →
      validOps tb ops = true → ∀ n : Nat, bucketInv (runOps tb (ops.take n)) := by
  induction ops with
  | nil =>
      intro tb h _ _ n
      simpa [runOps] using h
  | cons op rest ih =>
      intro tb h htick hv n
      cases n with
      | zero => simpa [runOps] using h
      | succ m =>
          have hstep : bucketInv (runOp tb op) ∧ validOps (runOp tb op) rest = true := by
            cases op with
            | get =>
                exact ⟨bucketInv_Get tb h, by simpa [validOps] using hv⟩
            | refund n =>
                simp only [validOps, Bool.and_eq_true, decide_eq_true_eq] at hv
                exact ⟨bucketInv_Refund tb n hv.1 h, hv.2⟩
            | advanceTo t =>
                simp only [validOps, Bool.and_eq_true, decide_eq_true_eq] at hv
                exact ⟨bucketInv_AdvanceTo tb t htick hv.1 h, hv.2⟩
          have htick' : 0 < (runOp tb op).tick := by
            rw [runOp_tick]; exact htick
          simpa [runOps, List.take] using ih (runOp tb op) hstep.1 htick' hstep.2 m

theorem tmod_neg_left (a b : Int) : Int.tmod (-a) b = -Int.tmod a b := by
  rw [Int.tmod_def, Int.tmod_def, Int.neg_tdiv]
  ring

theorem tdiv_tmod_eq_zero_of_pos (a b : Int) (hb : 0 < b) :
    Int.tdiv (Int.tmod a b) b = 0 := by
  rcases le_or_lt 0 a with ha | ha
  · exact Int.tdiv_eq_zero_of_lt (Int.tmod_nonneg b ha) (Int.tmod_lt_of_pos a hb)
  · have h1 : Int.tmod a b = -Int.tmod (-a) b := by
      rw [tmod_neg_left, neg_neg]
    rw [h1, Int.neg_tdiv,
      Int.tdiv_eq_zero_of_lt (Int.tmod_nonneg b (by omega)) (Int.tmod_lt_of_pos (-a) hb),
      neg_zero]

theorem tdiv_tmod_eq_zero (a b : Int) (hb : b ≠ 0) :
    Int.tdiv (Int.tmod a b) b = 0 := by
  rcases lt_or_gt_of_ne hb with hneg | hpos
  · have hb' : b = -(-b) := by ring
    rw [hb', Int.tmod_neg, Int.tdiv_neg, tdiv_tmod_eq_zero_of_pos a (-b) (by omega), neg_zero]
  · exact tdiv_tmod_eq_zero_of_pos a b hpos

/-- C2 counterexample: the invariant is not preserved by arbitrary call
sequences. Construct a bucket with tick 1, max 1 at instant 0, take its one
token with Get, then call AdvanceTo with the earlier instant -1: the Go code
computes ticks = -1 and Refund(-1) drives remaining to -1 < 0. -/
theorem c2_invariant_counterexample :
    ¬ bucketInv (runOps (newTokenBucket 1 1 0) [BucketOp.get, BucketOp.advanceTo (-1)]) := by
  decide

/-- C2 amended: for a bucket constructed with positive tick and nonnegative
max, and any sequence of Get, Refund and AdvanceTo calls in which every Refund
amount is nonnegative and no AdvanceTo instant lies before the bucket's
current lastRefill, the invariant 0 ≤ remaining ≤ max holds before the first
call and after every call (i.e. after every prefix of the sequence). -/
theorem c2_bucket_invariant (tick max now : Int) (htick : 0 < tick) (hmax : 0 ≤ max)
    (ops : List BucketOp) (hv : validOps (newTokenBucket tick max now) ops = true)
    (n : Nat) :
    bucketInv (runOps (newTokenBucket tick max now) (ops.take n)) := by
  apply bucketInv_runOps_take ops (newTokenBucket tick max now) ?_ htick hv
  exact ⟨hmax, le_refl _⟩

theorem c2_bucket_invariant_witness :
    bucketInv (runOps (newTokenBucket 2 3 0)
      ([BucketOp.get, BucketOp.refund 1, BucketOp.advanceTo 5].take 3)) :=
  c2_bucket_invariant 2 3 0 (by decide) (by decide) _ (by decide) 3

/-- C3: AdvanceTo(now) computes ticks as truncating integer division of the
elapsed time by tick, advances lastRefill by exactly ticks * tick (not to now:
under forward time and positive tick the retained remainder now - lastRefill
stays in [0, tick)), and credits the ticks via Refund; concretely with
tick = 1s (10^9 ns), an AdvanceTo at start+1.5s credits exactly 1 token and a
later AdvanceTo at start+2.0s credits exactly 1 more. -/
theorem c3_advanceTo_spec (tb : tokenBucket) (now : Int)
    (htick : 0 < tb.tick) (hle : tb.t ≤ now) :
    tb.AdvanceTo now
        = tokenBucket.Refund
            { tb with t := tb.t + Int.tdiv (now - tb.t) tb.tick * tb.tick }
            (Int.tdiv (now - tb.t) tb.tick)
      ∧ (tb.AdvanceTo now).t ≤ now
      ∧ now - (tb.AdvanceTo now).t < tb.tick
      ∧ ((⟨0, 5, 1000000000, 0⟩ : tokenBucket).AdvanceTo 1500000000).remaining = 1
      ∧ ((⟨0, 5, 1000000000, 0⟩ : tokenBucket).AdvanceTo 1500000000).t = 1000000000
      ∧ (((⟨0, 5, 1000000000, 0⟩ : tokenBucket).AdvanceTo 1500000000).AdvanceTo
            2000000000).remaining = 2 := by
  have hrem : now - (tb.AdvanceTo now).t = Int.tmod (now - tb.t) tb.tick := by
    rw [AdvanceTo_t, Int.tmod_def]; ring
  refine ⟨rfl, ?_, ?_, by decide, by decide, by decide⟩
  · have h0 : 0 ≤ Int.tmod (now - tb.t) tb.tick := Int.tmod_nonneg tb.tick (by omega)
    omega
  · have h1 : Int.tmod (now - tb.t) tb.tick < tb.tick :=
      Int.tmod_lt_of_pos (now - tb.t) htick
    omega

theorem c3_advanceTo_spec_witness :
    ((⟨0, 5, 1000000000, 0⟩ : tokenBucket).AdvanceTo 1500000000).t ≤ 1500000000 :=
  (c3_advanceTo_spec ⟨0, 5, 1000000000, 0⟩ 1500000000 (by decide) (by decide)).2.1

/-- C4: Get() decrements remaining and returns true exactly when remaining > 0
and returns false leaving the bucket unchanged otherwise; concretely, a bucket
with max = 5 and tick = 1s starting full admits exactly 5 consecutive Get
calls, the 6th fails, and after AdvanceTo(start + 1s) exactly one further Get
succeeds. -/
theorem c4_get_spec (tb : tokenBucket) :
    (0 < tb.remaining →
        tokenBucket.Get tb = (true, { tb with remaining := tb.remaining - 1 }))
    ∧ (tb.remaining ≤ 0 → tokenBucket.Get tb = (false, tb))
    ∧ (getResults (newTokenBucket 1000000000 5 0)
        [BucketOp.get, BucketOp.get, BucketOp.get, BucketOp.get, BucketOp.get,
          BucketOp.get, BucketOp.advanceTo 1000000000, BucketOp.get, BucketOp.get]).1
      = [true, true, true, true, true, false, true, false] := by
  refine ⟨?_, ?_, by decide⟩
  · intro h
    unfold tokenBucket.Get
    rw [if_pos h]
  · intro h
    unfold tokenBucket.Get
    rw [if_neg (by omega)]

theorem c4_get_spec_witness :
    tokenBucket.Get (⟨3, 5, 1, 0⟩ : tokenBucket) = (true, (⟨2, 5, 1, 0⟩ : tokenBucket)) :=
  (c4_get_spec ⟨3, 5, 1, 0⟩).1 (by decide)

/-- C9: calling AdvanceTo twice with the same instant credits zero additional
tokens on the second call; in fact the second call leaves the whole bucket
(remaining and lastRefill included) unchanged, for any tick ≠ 0 (tick = 0
would make the Go code divide by zero). -/
theorem c9_advanceTo_idempotent (tb : tokenBucket) (now : Int) (h : tb.tick ≠ 0) :
    (tb.AdvanceTo now).AdvanceTo now = tb.AdvanceTo now := by
  have hmax : (tb.AdvanceTo now).remaining ≤ (tb.AdvanceTo now).max :=
    AdvanceTo_remaining_le tb now
  have htick1 : (tb.AdvanceTo now).tick = tb.tick := AdvanceTo_tick tb now
  have hrem : now - (tb.AdvanceTo now).t = Int.tmod (now - tb.t) tb.tick := by
    rw [AdvanceTo_t, Int.tmod_def]; ring
  have hq0 : Int.tdiv (now - (tb.AdvanceTo now).t) (tb.AdvanceTo now).tick = 0 := by
    rw [htick1, hrem]
    exact tdiv_tmod_eq_zero _ _ h
  show tokenBucket.Refund _ _ = _
  rw [hq0, zero_mul, add_zero]
  exact Refund_zero_of_le _ hmax

theorem c9_advanceTo_idempotent_witness :
    ((⟨2, 5, 7, 0⟩ : tokenBucket).AdvanceTo 23).AdvanceTo 23
      = (⟨2, 5, 7, 0⟩ : tokenBucket).AdvanceTo 23 :=
  c9_advanceTo_idempotent ⟨2, 5, 7, 0⟩ 23 (by decide)

/-- Helper for the model of Go strings.Contains: does sub occur as a
contiguous sublist of l? -/
def listContainsSub : List Char → List Char → Bool
  | [], sub => sub.isEmpty
  | c :: t, sub => sub.isPrefixOf (c :: t) || listContainsSub t sub

/-- Model of Go strings.Contains(s, sub). -/
def goContains (s : String) (sub : String) : Bool :=
  listContainsSub s.data sub.data

/-- Helper for the model of fmt.Sprintf, on character lists. -/
def sprintfAux : List Char → List String → List Char
  | [], _ => []
  | '%' :: 's' :: rest, a :: args => a.data ++ sprintfAux rest args
  | '%' :: 's' :: rest, [] => ("%!s(MISSING)").data ++ sprintfAux rest []
  | '%' :: '%' :: rest, args => '%' :: sprintfAux rest args
  | c :: rest, args => c :: sprintfAux rest args

/-- Model of fmt.Sprintf restricted to the fragment the pipeline and the
claims exercise: the verb %s over string arguments (plus the escape %%, and
the "%!s(MISSING)" filler for a missing argument). Other verbs and the
extra-argument decoration of the full Go formatter are not modelled; every
concrete format string appearing in the claims and in wglog.go uses only this
fragment. -/
def sprintf (format : String) (args : List String) : String :=
  String.mk (sprintfAux format.data args)

/-- A rewrite table: the ordered (old, new) pairs a Go strings.Replacer is
built from. -/
abbrev Replacer := List (String × String)

/-- Helper for the model of strings.Replacer.Replace: the first pair whose
(nonempty) old string is a literal prefix of l, in argument order. Empty old
patterns never arise here: SetPeers only builds old strings of the form
"peer(...)". -/
def findRep : List Char → Replacer → Option (String × String)
  | _, [] => none
  | l, (o, n) :: rest =>
      if !o.data.isEmpty && o.data.isPrefixOf l then some (o, n) else findRep l rest

/-- Helper for the model of strings.Replacer.Replace, structured with
explicit fuel; one unit of fuel is spent per character position, and a match
always consumes at least one character, so fuel = length of the scanned list
suffices. Matched text is replaced and the replacement is not rescanned. -/
def replaceAux : Nat → List Char → Replacer → List Char
  | 0, l, _ => l
  | _ + 1, [], _ => []
  | fuel + 1, c :: t, prs =>
      match findRep (c :: t) prs with
      | some (o, n) => n.data ++ replaceAux fuel (List.drop (o.data.length - 1) t) prs
      | none => c :: replaceAux fuel t prs

/-- Model of Go strings.Replacer.Replace: scan left to right, replacing the
leftmost match of the earliest-listed pattern, without rescanning
replacements. -/
def replacerReplace (prs : Replacer) (s : String) : String :=
  String.mk (replaceAux s.data.length s.data prs)

/-- The base64 standard alphabet, as in Go encoding/base64 StdEncoding. -/
def b64Alphabet : List Char :=
  ("ABCDEFGHIJKLMNOPQRSTUVWXYZabcdefghijklmnopqrstuvwxyz0123456789+/").data

/-- Character of the base64 standard alphabet at index n. -/
def b64Char (n : Nat) : Char :=
  b64Alphabet.getD n 'A'

/-- Model of Go base64.StdEncoding.EncodeToString over a byte list (bytes as
Nat): 3-byte groups become 4 alphabet characters; a 1- or 2-byte tail is
padded with '='. -/
def b64Encode : List Nat → List Char
  | [] => []
  | [a] => [b64Char (a / 4), b64Char (a % 4 * 16), '=', '=']
  | [a, b] => [b64Char (a / 4), b64Char (a % 4 * 16 + b / 16), b64Char (b % 16 * 4), '=']
  | a :: b :: c :: rest =>
      b64Char (a / 4) :: b64Char (a % 4 * 16 + b / 16) ::
        b64Char (b % 16 * 4 + c / 64) :: b64Char (c % 64) :: b64Encode rest

/-- Model of wireguardGoString (wgengine/wglog/wglog.go): abbreviate the
base64 key as characters [0:4] ++ ellipsis ++ [39:43] when the encoding has
length 44, else the literal "invalid". Keys are byte lists (wgcfg.Key is a
fixed 32-byte array; the length is carried as a hypothesis where needed). -/
def wireguardGoString (k : List Nat) : String :=
  if (String.mk (b64Encode k)).length = 44 then
    String.mk ((b64Encode k).take 4) ++ "…" ++ String.mk (((b64Encode k).drop 39).take 4)
  else
    "invalid"

/-- Modelled from the spec: a wgcfg.Peer as the pipeline sees it. The wgcfg
package is not under src/; per the spec a peer carries a fixed 32-byte public
key and a stable application-level short identifier (the Go method
PublicKey.ShortString(), modelled as the field ShortString). -/
structure Peer where
  PublicKey : List Nat
  ShortString : String

/-- The flat old/new replacement list built by the loop in SetPeers, in peer
order: for each peer, its wireguard-go identifier "peer(" + abbreviated key +
")" followed by its short identifier. -/
def setPeersReplace : List Peer → List String
  | [] => []
  | p :: rest =>
      ("peer(" ++ wireguardGoString p.PublicKey ++ ")") :: p.ShortString ::
        setPeersReplace rest

/-- Model of strings.NewReplacer: consecutive elements pair up as (old, new). -/
def newReplacer : List String → Replacer
  | old :: new :: rest => (old, new) :: newReplacer rest
  | _ => []

/-- Model of Logger.SetPeers: build the whole replacement table from the full
peer list and publish it, wholesale, into the replacer slot (the atomic.Value
is modelled as the Option Replacer the next log call will load). -/
def SetPeers (slot : Option Replacer) (peers : List Peer) : Option Replacer :=
  some (newReplacer (setPeersReplace peers))

/-- Model of the fixup closure in NewLogger (wgengine/wglog/wglog.go): format
the message, apply the three drop rules in order, then the rewrite step; the
result is the (format, args) pair fixup passes on to unlimitLogf, or none
when the message is dropped. -/
def fixup (replacer : Option Replacer) (format : String) (args : List String) :
    Option (String × List String) :=
  let msg := sprintf format args
  if goContains msg "Routine:" && !goContains msg "receive incoming" then
    none
  else if goContains msg "Failed to send data packet" then
    none
  else if goContains msg "Interface up requested"
      || goContains msg "Interface down requested" then
    none
  else
    match replacer with
    | none => some (format, args)
    | some prs =>
        if replacerReplace prs msg = msg then
          some (format, args)
        else
          some ("%s", [replacerReplace prs msg])

/-- Model of the unlimitLogf closure in NewLogger: prepend the fixed marker
to the format string and emit to the underlying logf. -/
def unlimitLogf (format : String) (args : List String) : String × List String :=
  ("<RATELIMITED>" ++ format, args)

/-- Buckets tracked by the keyed rate limiter, keyed by format string. -/
abbrev BucketMap := List (String × tokenBucket)

/-- Look up the bucket owned by a format key. -/
def lookupBucket : BucketMap → String → Option tokenBucket
  | [], _ => none
  | (k, tb) :: rest, key => if k = key then some tb else lookupBucket rest key

/-- Store back the bucket owned by a format key. -/
def storeBucket : BucketMap → String → tokenBucket → BucketMap
  | [], key, tb => [(key, tb)]
  | (k, tb0) :: rest, key, tb =>
      if k = key then (key, tb) :: rest else (k, tb0) :: storeBucket rest key tb

/-- Modelled from the spec: the admission step of logger.RateLimitedFn
(types/logger, whose implementation is not under src/). Per the spec, each
distinct format key owns a token bucket created lazily on first sight with
capacity = burst and tick = interval; a call is admitted when, after advancing
the key's bucket to the current instant, the bucket yields a token; rejected
calls are dropped silently and admitted calls are forwarded unchanged. The
bounded-key eviction policy is left unspecified by the spec and is not
modelled (the runs proved here use a single key). -/
def rlAdmit (interval : Int) (burst : Int) (bs : BucketMap) (key : String)
    (now : Int) : Bool × BucketMap :=
  let tb0 := match lookupBucket bs key with
    | some tb => tb
    | none => newTokenBucket interval burst now
  let tb1 := tb0.AdvanceTo now
  ((tb1.Get).1, storeBucket bs key (tb1.Get).2)

/-- One log call as wired in NewLogger (wgengine/wglog/wglog.go): the
producer-facing entry point is rlogf = RateLimitedFn(fixup, 5s, 5, 100), so
the rate limiter runs first, keyed on the incoming format string, and only
calls it admits reach fixup (drop filter, then rewrite) and then unlimitLogf.
Returns the list of (format, args) pairs emitted to the underlying logf,
plus the updated rate-limiter state. -/
def codeLogCall (replacer : Option Replacer) (bs : BucketMap) (format : String)
    (args : List String) (now : Int) : List (String × List String) × BucketMap :=
  match rlAdmit 5000000000 5 bs format now with
  | (false, bs') => ([], bs')
  | (true, bs') =>
      match fixup replacer format args with
      | none => ([], bs')
      | some (f, a) => ([unlimitLogf f a], bs')

/-- Run a sequence of log calls (format, args, instant) through the pipeline
as wired in the code, collecting everything emitted to logf. -/
def codeRun (replacer : Option Replacer) (bs : BucketMap) :
    List (String × List String × Int) → List (String × List String)
  | [] => []
  | (f, a, now) :: rest =>
      (codeLogCall replacer bs f a now).1 ++ codeRun replacer (codeLogCall replacer bs f a now).2 rest

/-- Modelled from the spec, for comparison with codeLogCall: the pipeline
order the spec describes (filter, then rewrite, then keyed rate limiting on
the surviving format key, which is the constant "%s" key carrying the
rewritten text when a replacement occurred). -/
def specLogCall (replacer : Option Replacer) (bs : BucketMap) (format : String)
    (args : List String) (now : Int) : List (String × List String) × BucketMap :=
  match fixup replacer format args with
  | none => ([], bs)
  | some (f, a) =>
      match rlAdmit 5000000000 5 bs f now with
      | (false, bs') => ([], bs')
      | (true, bs') => ([unlimitLogf f a], bs')

/-- Run a sequence of log calls through the spec-described pipeline order. -/
def specRun (replacer : Option Replacer) (bs : BucketMap) :
    List (String × List String × Int) → List (String × List String)
  | [] => []
  | (f, a, now) :: rest =>
      (specLogCall replacer bs f a now).1 ++ specRun replacer (specLogCall replacer bs f a now).2 rest

/-- The six-call input showing the pipeline-order divergence: five calls whose
formatted message is routine noise (dropped by the filter), then one innocuous
call, all sharing the format key "%s" and arriving at instant 0. -/
def c1Calls : List (String × List String × Int) :=
  [("%s", ["Routine: a - starting"], 0),
   ("%s", ["Routine: b - starting"], 0),
   ("%s", ["Routine: c - starting"], 0),
   ("%s", ["Routine: d - starting"], 0),
   ("%s", ["Routine: e - starting"], 0),
   ("%s", ["hello"], 0)]

/-- C1: the wiring in NewLogger contradicts the claimed pipeline order. The
code builds rlogf = RateLimitedFn(fixup, ...), so keyed rate limiting runs
FIRST, on the original format string, and only the calls it admits reach the
drop filter and the rewrite step; the fixup comment about replacements
impacting rate limiting is false under this wiring. Evaluated at the failing
input c1Calls: five routine-noise calls (each dropped by the filter) first
drain the "%s" key's bucket, so the subsequent harmless "hello" call is
silently rate-limited and nothing at all is emitted, whereas the pipeline
order the claim and the spec describe filters the noise before throttling and
emits the "hello" call. -/
theorem c1_throttle_runs_before_filter_and_rewrite :
    codeRun none [] c1Calls = []
      ∧ specRun none [] c1Calls = [("<RATELIMITED>%s", ["hello"])] := by
  constructor
  · decide
  · decide

/-- C8: for a log call arriving before any SetPeers call has published a
table (replacer slot empty), the rewrite step is skipped entirely: fixup
either drops the message or passes the original format string and arguments
through unchanged, anything emitted to logf is the original format (with the
fixed marker) and original arguments, and the rate-limit bucket consulted is
the one keyed by the original format string. -/
theorem c8_no_table_passthrough (bs : BucketMap) (format : String)
    (args : List String) (now : Int) :
    (fixup none format args = none ∨ fixup none format args = some (format, args))
      ∧ ((codeLogCall none bs format args now).1 = []
          ∨ (codeLogCall none bs format args now).1
              = [("<RATELIMITED>" ++ format, args)])
      ∧ (codeLogCall none bs format args now).2
          = (rlAdmit 5000000000 5 bs format now).2 := by
  have hfix : fixup none format args = none ∨ fixup none format args = some (format, args) := by
    dsimp only [fixup]
    split
    · exact Or.inl rfl
    · split
      · exact Or.inl rfl
      · split
        · exact Or.inl rfl
        · exact Or.inr rfl
  refine ⟨hfix, ?_, ?_⟩
  · unfold codeLogCall
    rcases h : rlAdmit 5000000000 5 bs format now with ⟨adm, bs'⟩
    cases adm
    · exact Or.inl rfl
    · rcases hfix with hf | hf <;> rw [hf]
      · exact Or.inl rfl
      · exact Or.inr rfl
  · unfold codeLogCall
    rcases h : rlAdmit 5000000000 5 bs format now with ⟨adm, bs'⟩
    cases adm
    · rfl
    · rcases hfix with hf | hf <;> rw [hf]

theorem b64Encode_length (l : List Nat) :
    (b64Encode l).length = (l.length + 2) / 3 * 4 := by
  induction l using b64Encode.induct with
  | case1 => rfl
  | case2 a => simp [b64Encode]
  | case3 a b => simp [b64Encode]
  | case4 a b c rest ih =>
      simp only [b64Encode, List.length_cons, ih]
      omega

/-- C10: for every 32-byte key the standard padded base64 encoding has exactly
44 characters, so wireguardGoString always takes the abbreviating branch:
its result is 4 characters, an ellipsis, then 4 more characters, and it is
never the literal "invalid". -/
theorem c10_key_encoding_always_valid (k : List Nat) (h : k.length = 32) :
    (b64Encode k).length = 44
      ∧ wireguardGoString k
          = String.mk ((b64Encode k).take 4) ++ "…"
              ++ String.mk (((b64Encode k).drop 39).take 4)
      ∧ ((b64Encode k).take 4).length = 4
      ∧ (((b64Encode k).drop 39).take 4).length = 4
      ∧ wireguardGoString k ≠ "invalid" := by
  have hlen : (b64Encode k).length = 44 := by
    rw [b64Encode_length, h]
  have hmk : (String.mk (b64Encode k)).length = 44 := hlen
  have hshape : wireguardGoString k
      = String.mk ((b64Encode k).take 4) ++ "…"
          ++ String.mk (((b64Encode k).drop 39).take 4) := by
    unfold wireguardGoString
    rw [if_pos hmk]
  have ht4 : ((b64Encode k).take 4).length = 4 := by
    rw [List.length_take, hlen]
    omega
  have hd4 : (((b64Encode k).drop 39).take 4).length = 4 := by
    rw [List.length_take, List.length_drop, hlen]
    omega
  refine ⟨hlen, hshape, ht4, hd4, ?_⟩
  intro hbad
  have h9 : (wireguardGoString k).length = 9 := by
    rw [hshape]
    simp only [String.length_append]
    show ((b64Encode k).take 4).length + 1 + (((b64Encode k).drop 39).take 4).length = 9
    omega
  rw [hbad] at h9
  exact absurd h9 (by decide)

theorem c10_key_encoding_always_valid_witness :
    wireguardGoString (List.replicate 32 0) ≠ "invalid" :=
  (c10_key_encoding_always_valid (List.replicate 32 0) (by decide)).2.2.2.2

theorem newReplacer_setPeersReplace (peers : List Peer) :
    newReplacer (setPeersReplace peers)
      = peers.map fun p =>
          ("peer(" ++ wireguardGoString p.PublicKey ++ ")", p.ShortString) := by
  induction peers with
  | nil => rfl
  | cons p rest ih => simp [setPeersReplace, newReplacer, ih]

/-- C7: every SetPeers call publishes exactly the (old-identifier,
short-identifier) pairs computed from the full peer list it is given — one
pair per peer, in the peers' order — and the published table is a function of
that list alone, independent of whatever table (if any) was published before:
a wholesale replacement, never an edit of the previous table. -/
theorem c7_setPeers_wholesale (slot : Option Replacer) (peers : List Peer) :
    SetPeers slot peers
      = some (peers.map fun p =>
          ("peer(" ++ wireguardGoString p.PublicKey ++ ")", p.ShortString)) := by
  unfold SetPeers
  rw [newReplacer_setPeersReplace]

/-- C5: fixup drops a message (producing no output at all) exactly when the
fully formatted message matches one of the three rules: it contains
"Routine:" without containing "receive incoming", or it contains "Failed to
send data packet", or it contains "Interface up requested" or "Interface down
requested"; concretely "Routine: Foo - starting" is dropped while
"Routine: receive incoming - ready" does not match the routine-noise rule and
is passed through. -/
theorem c5_drop_filter (replacer : Option Replacer) (format : String)
    (args : List String) :
    (fixup replacer format args = none
      ↔ ((goContains (sprintf format args) "Routine:"
            && !goContains (sprintf format args) "receive incoming")
          || goContains (sprintf format args) "Failed to send data packet"
          || (goContains (sprintf format args) "Interface up requested"
              || goContains (sprintf format args) "Interface down requested"))
          = true)
    ∧ fixup none "%s" ["Routine: Foo - starting"] = none
    ∧ (goContains "Routine: receive incoming - ready" "Routine:"
        && !goContains "Routine: receive incoming - ready" "receive incoming")
        = false
    ∧ fixup none "%s" ["Routine: receive incoming - ready"]
        = some ("%s", ["Routine: receive incoming - ready"]) := by
  refine ⟨?_, by decide, by decide, by decide⟩
  dsimp only [fixup]
  split
  · next h => simp [h]
  · next h1 =>
      split
      · next h2 => simp [h1, h2]
      · next h2 =>
          split
          · next h3 => simp [h1, h2, h3]
          · next h3 =>
              cases replacer with
              | none => simp [h1, h2, h3]
              | some prs =>
                  simp only [h1, h2, h3, Bool.or_self, Bool.or_false, Bool.false_or]
                  constructor
                  · intro hnone
                    split at hnone <;> simp_all
                  · intro hfalse
                    simp at hfalse

theorem listContainsSub_of_isPrefixOf {sub l : List Char}
    (h : sub.isPrefixOf l = true) : listContainsSub l sub = true := by
  cases l with
  | nil =>
      cases sub with
      | nil => rfl
      | cons c t => simp [List.isPrefixOf] at h
  | cons c t =>
      unfold listContainsSub
      rw [h]
      rfl

theorem listContainsSub_cons (c : Char) {t sub : List Char}
    (h : listContainsSub t sub = true) : listContainsSub (c :: t) sub = true := by
  unfold listContainsSub
  rw [h]
  simp

theorem listContainsSub_append_left (pre : List Char) {rest : List Char} :
    listContainsSub (pre ++ rest) pre = true := by
  apply listContainsSub_of_isPrefixOf
  simp [List.isPrefixOf_iff_prefix]

theorem findRep_single_some {l : List Char} {o n : String} {p : String × String}
    (h : findRep l [(o, n)] = some p) : p = (o, n) := by
  unfold findRep at h
  split at h
  · exact (Option.some.injEq _ _ ▸ h.symm) ▸ rfl
  · exact absurd h (by simp [findRep])

theorem findRep_single_none {l : List Char} {o n : String}
    (h : findRep l [(o, n)] = none) (ho : o.data.isEmpty = false) :
    o.data.isPrefixOf l = false := by
  by_contra hne
  have hp : o.data.isPrefixOf l = true := by
    cases hb : o.data.isPrefixOf l
    · exact absurd hb hne
    · rfl
  unfold findRep at h
  rw [if_pos (by rw [ho, hp]; rfl)] at h
  exact absurd h (by simp)

theorem replaceAux_contains (o n : String) (ho : o.data.isEmpty = false) :
    ∀ (fuel : Nat) (l : List Char), l.length ≤ fuel →
      listContainsSub l o.data = true →
      listContainsSub (replaceAux fuel l [(o, n)]) n.data = true := by
  intro fuel
  induction fuel with
  | zero =>
      intro l hl hc
      have : l = [] := List.length_eq_zero.mp (Nat.le_zero.mp hl)
      subst this
      unfold listContainsSub at hc
      rw [ho] at hc
      exact absurd hc (by simp)
  | succ m ih =>
      intro l hl hc
      cases l with
      | nil =>
          unfold listContainsSub at hc
          rw [ho] at hc
          exact absurd hc (by simp)
      | cons c t =>
          cases hf : findRep (c :: t) [(o, n)] with
          | some p =>
              have hp : p = (o, n) := findRep_single_some hf
              subst hp
              have hred : replaceAux (m + 1) (c :: t) [(o, n)]
                  = n.data ++ replaceAux m (List.drop (o.data.length - 1) t) [(o, n)] := by
                simp only [replaceAux, hf]
              rw [hred]
              exact listContainsSub_append_left n.data
          | none =>
              have hnp : o.data.isPrefixOf (c :: t) = false := findRep_single_none hf ho
              have hct : listContainsSub t o.data = true := by
                unfold listContainsSub at hc
                rw [hnp] at hc
                simpa using hc
              have hred : replaceAux (m + 1) (c :: t) [(o, n)]
                  = c :: replaceAux m t [(o, n)] := by
                simp only [replaceAux, hf]
              rw [hred]
              exact listContainsSub_cons c
                (ih t (by simpa using Nat.le_of_succ_le_succ (by simpa using hl)) hct)

theorem peer_ident_data_nonempty (s : String) :
    (("peer(" ++ s ++ ")").data).isEmpty = false := by
  rw [String.data_append, String.data_append]
  have h : "peer(".data = ['p', 'e', 'e', 'r', '('] := rfl
  rw [h]
  rfl

/-- C6: the old identifier published for a peer is "peer(" followed by the
abbreviated key and ")", where for a 32-byte key (whose padded base64
encoding necessarily has 44 characters) the abbreviation is characters 1-4,
an ellipsis, then characters 40-43 (1-indexed), while any key whose encoding
length is not 44 abbreviates to the literal "invalid"; and after publishing
the rewrite pair for such a peer, any message containing the peer's old
identifier is rewritten to a message containing the peer's short
identifier. -/
theorem c6_peer_ident_rewrite (p : Peer) (msg : String)
    (hlen : p.PublicKey.length = 32)
    (hc : goContains msg ("peer(" ++ wireguardGoString p.PublicKey ++ ")") = true) :
    newReplacer (setPeersReplace [p])
        = [("peer(" ++ wireguardGoString p.PublicKey ++ ")", p.ShortString)]
      ∧ wireguardGoString p.PublicKey
          = String.mk ((b64Encode p.PublicKey).take 4) ++ "…"
              ++ String.mk (((b64Encode p.PublicKey).drop 39).take 4)
      ∧ (∀ k : List Nat, (String.mk (b64Encode k)).length ≠ 44 →
            wireguardGoString k = "invalid")
      ∧ goContains (replacerReplace (newReplacer (setPeersReplace [p])) msg)
          p.ShortString = true := by
  refine ⟨rfl, ?_, ?_, ?_⟩
  · have hlen44 : (String.mk (b64Encode p.PublicKey)).length = 44 := by
      show (b64Encode p.PublicKey).length = 44
      rw [b64Encode_length, hlen]
    unfold wireguardGoString
    rw [if_pos hlen44]
  · intro k hk
    unfold wireguardGoString
    rw [if_neg hk]
  · show listContainsSub
        (replaceAux msg.data.length msg.data
          [("peer(" ++ wireguardGoString p.PublicKey ++ ")", p.ShortString)])
        p.ShortString.data = true
    exact replaceAux_contains _ _ (peer_ident_data_nonempty _) _ _ (le_refl _) hc

theorem c6_peer_ident_rewrite_witness :
    goContains
      (replacerReplace
        (newReplacer (setPeersReplace [⟨List.replicate 32 0, "[k1]"⟩]))
        "x peer(AAAA…AAAA) y")
      "[k1]" = true :=
  (c6_peer_ident_rewrite ⟨List.replicate 32 0, "[k1]"⟩ "x peer(AAAA…AAAA) y"
    (by decide) (by decide)).2.2.2
